import Mathlib

/-!
Verification of the line-coding / spectral-analysis engine of
LineCodingPrefinal (app.py).

Encoders produce signals with sample values in the set containing -1, 0 and 1,
so they are embedded over the integers (the Python floats are exact there).
Spectral analysis is embedded over the real and complex numbers, with
numpy routines translated to their mathematical definitions.
-/

namespace LineCoding

/-- Python slice assignment on a numpy array: every position j with
a less-equal j and j less than b is set to v, other positions keep their value. -/
def setSlice (xs : List ℤ) (a b : ℕ) (v : ℤ) : List ℤ :=
  (List.range xs.length).map (fun j => if a ≤ j ∧ j < b then v else xs.getD j 0)

/-- app.py encode_nrz_l: np.repeat(data, samples_per_bit) then
np.where(data_upsampled == 1, 1, -1). -/
def encode_nrz_l (data : List ℤ) (S : ℕ) : List ℤ :=
  ((data.flatMap (fun b => List.replicate S b)).map (fun x => if x = 1 then 1 else -1))

/-- Loop body of encode_rz in app.py: write +1 or -1 on the first half of
bit block i. -/
def rzStep (S : ℕ) (sig : List ℤ) (ib : ℕ × ℤ) : List ℤ :=
  if ib.2 = 1 then setSlice sig (ib.1 * S) (ib.1 * S + S / 2) 1
  else setSlice sig (ib.1 * S) (ib.1 * S + S / 2) (-1)

/-- app.py encode_rz: a zero array of total length, slice-filled with +1 or -1
on the first half of each bit block. -/
def encode_rz (data : List ℤ) (S : ℕ) : List ℤ :=
  data.enum.foldl (rzStep S) (List.replicate (data.length * S) 0)

/-- Loop body of encode_manchester in app.py: two slice assignments forming
the mid-bit transition of block i. -/
def manchesterStep (S : ℕ) (sig : List ℤ) (ib : ℕ × ℤ) : List ℤ :=
  if ib.2 = 1 then
    setSlice (setSlice sig (ib.1 * S) (ib.1 * S + S / 2) (-1)) (ib.1 * S + S / 2) (ib.1 * S + S) 1
  else
    setSlice (setSlice sig (ib.1 * S) (ib.1 * S + S / 2) 1) (ib.1 * S + S / 2) (ib.1 * S + S) (-1)

/-- app.py encode_manchester: each bit block gets a mid-bit transition,
written with two slice assignments. -/
def encode_manchester (data : List ℤ) (S : ℕ) : List ℤ :=
  data.enum.foldl (manchesterStep S) (List.replicate (data.length * S) 0)

/-- Loop body of encode_ami in app.py: on a 1-bit, fill block i with the
current polarity and flip it; otherwise leave both signal and polarity alone. -/
def amiStep (S : ℕ) (sp : List ℤ × ℤ) (ib : ℕ × ℤ) : List ℤ × ℤ :=
  if ib.2 = 1 then (setSlice sp.1 (ib.1 * S) (ib.1 * S + S) sp.2, -sp.2) else sp

/-- app.py encode_ami: zero array plus a polarity accumulator, initialised to +1,
flipped after every 1-bit. -/
def encode_ami (data : List ℤ) (S : ℕ) : List ℤ :=
  (data.enum.foldl (amiStep S) (List.replicate (data.length * S) 0, 1)).1

/-- The four line-coding schemes of app.py. -/
inductive EncodingScheme
  | nrz_l | rz | manchester | ami
deriving DecidableEq

/-- Dispatch over the four encoder functions of app.py (the set of schemes
produced by the /api/encode handler). -/
def encodeScheme (s : EncodingScheme) (data : List ℤ) (S : ℕ) : List ℤ :=
  match s with
  | .nrz_l => encode_nrz_l data S
  | .rz => encode_rz data S
  | .manchester => encode_manchester data S
  | .ami => encode_ami data S

/-- The i-th per-bit sample block of a signal (samples i*S to (i+1)*S-1). -/
def blockOf (sig : List ℤ) (S i : ℕ) : List ℤ :=
  (sig.drop (i * S)).take S

/-- Closed form of one RZ bit block. -/
def rzBlock (S : ℕ) (b : ℤ) : List ℤ :=
  List.replicate (S / 2) (if b = 1 then 1 else -1) ++ List.replicate (S - S / 2) 0

/-- Closed form of one Manchester bit block. -/
def manchesterBlock (S : ℕ) (b : ℤ) : List ℤ :=
  if b = 1 then List.replicate (S / 2) (-1) ++ List.replicate (S - S / 2) 1
  else List.replicate (S / 2) 1 ++ List.replicate (S - S / 2) (-1)

/-- Closed form of the AMI signal: blocks in sequence, threading the polarity. -/
def amiBlocks (S : ℕ) : List ℤ → ℤ → List ℤ
  | [], _ => []
  | b :: bs, p =>
      (if b = 1 then List.replicate S p else List.replicate S 0) ++
        amiBlocks S bs (if b = 1 then -p else p)

/-- Polarity left after AMI-encoding a bit list starting from polarity p. -/
def amiFinal : List ℤ → ℤ → ℤ
  | [], p => p
  | b :: bs, p => amiFinal bs (if b = 1 then -p else p)

theorem length_setSlice (xs : List ℤ) (a b : ℕ) (v : ℤ) :
    (setSlice xs a b v).length = xs.length := by
  simp [setSlice]

theorem setSlice_cons (x : ℤ) (xs : List ℤ) (a b : ℕ) (v : ℤ) :
    setSlice (x :: xs) a b v =
      (if a = 0 ∧ 0 < b then v else x) :: setSlice xs (a - 1) (b - 1) v := by
  simp only [setSlice, List.length_cons, List.range_succ_eq_map, List.map_cons, List.map_map]
  congr 1
  · by_cases h : a = 0 ∧ 0 < b
    · simp only [if_pos h]
      rw [if_pos]
      omega
    · simp only [if_neg h, List.getD_cons_zero]
      rw [if_neg]
      omega
  · apply List.map_congr_left
    intro j _
    simp only [Function.comp_apply, Nat.succ_eq_add_one, List.getD_cons_succ]
    by_cases h : a - 1 ≤ j ∧ j < b - 1
    · rw [if_pos h, if_pos (by omega)]
    · rw [if_neg h, if_neg (by omega)]

theorem setSlice_eq_take_drop (xs : List ℤ) (a b : ℕ) (v : ℤ) (hab : a ≤ b)
    (hb : b ≤ xs.length) :
    setSlice xs a b v = xs.take a ++ (List.replicate (b - a) v ++ xs.drop b) := by
  induction xs generalizing a b with
  | nil =>
    simp only [List.length_nil, Nat.le_zero] at hb
    subst hb
    simp only [Nat.le_zero] at hab
    subst hab
    simp [setSlice]
  | cons x xs ih =>
    rw [setSlice_cons]
    cases a with
    | zero =>
      cases b with
      | zero => simp [ih 0 0 (le_refl 0) (Nat.zero_le _)]
      | succ b' =>
        simp only [Nat.zero_sub, Nat.add_sub_cancel]
        rw [ih 0 b' (Nat.zero_le _) (by simp at hb; omega)]
        simp [List.replicate_succ]
    | succ a' =>
      cases b with
      | zero => omega
      | succ b' =>
        simp only [Nat.add_sub_cancel]
        rw [ih a' b' (by omega) (by simp at hb; omega)]
        simp [Nat.succ_sub_succ]

theorem rz_fold (S : ℕ) (bs : List ℤ) : ∀ (k : ℕ) (pre suf : List ℤ),
    pre.length = k * S →
    (List.enumFrom k bs).foldl (rzStep S)
        (pre ++ (List.replicate (bs.length * S) 0 ++ suf)) =
      pre ++ (bs.flatMap (rzBlock S) ++ suf) := by
  induction bs with
  | nil => intro k pre suf _; simp
  | cons b bs ih =>
    intro k pre suf hpre
    have hsplit : List.replicate ((b :: bs).length * S) (0 : ℤ) =
        List.replicate S 0 ++ List.replicate (bs.length * S) 0 := by
      rw [← List.replicate_add]
      congr 1
      simp [Nat.succ_mul, Nat.add_comm]
    have hlen : (pre ++ (List.replicate ((b :: bs).length * S) (0 : ℤ) ++ suf)).length =
        k * S + (S + (bs.length * S + suf.length)) := by
      simp [hpre, Nat.succ_mul, Nat.add_mul]
      omega
    have htake : (pre ++ (List.replicate ((b :: bs).length * S) (0 : ℤ) ++ suf)).take (k * S)
        = pre := List.take_left' hpre
    have hdrop : (pre ++ (List.replicate ((b :: bs).length * S) (0 : ℤ) ++ suf)).drop
        (k * S + S / 2) =
        List.replicate (S - S / 2) 0 ++ (List.replicate (bs.length * S) 0 ++ suf) := by
      rw [← hpre, List.drop_append, hsplit, List.append_assoc,
        List.drop_append_eq_append_drop, List.drop_replicate]
      have h1 : S / 2 - (List.replicate S (0 : ℤ)).length = 0 := by simp; omega
      rw [h1]
      simp
    have hform : rzStep S (pre ++ (List.replicate ((b :: bs).length * S) 0 ++ suf)) (k, b) =
        setSlice (pre ++ (List.replicate ((b :: bs).length * S) 0 ++ suf))
          (k * S) (k * S + S / 2) (if b = 1 then 1 else -1) := by
      by_cases hb1 : b = 1 <;> simp [rzStep, hb1]
    have hstep : rzStep S (pre ++ (List.replicate ((b :: bs).length * S) 0 ++ suf)) (k, b) =
        (pre ++ rzBlock S b) ++ (List.replicate (bs.length * S) 0 ++ suf) := by
      rw [hform, setSlice_eq_take_drop _ _ _ _ (by omega) (by rw [hlen]; omega), htake, hdrop]
      have harith : k * S + S / 2 - k * S = S / 2 := by omega
      rw [harith, rzBlock]
      simp [List.append_assoc]
    rw [List.enumFrom_cons, List.foldl_cons, hstep,
      ih (k + 1) (pre ++ rzBlock S b) suf (by simp [rzBlock, hpre, Nat.add_mul]; omega)]
    simp

theorem encode_rz_eq_flatMap (data : List ℤ) (S : ℕ) :
    encode_rz data S = data.flatMap (rzBlock S) := by
  have h := rz_fold S data 0 [] []
  simp at h
  simpa [encode_rz, List.enum] using h

theorem setSlice_exact (pre mid suf : List ℤ) (v : ℤ) (a b : ℕ)
    (ha : a = pre.length) (hb : b = pre.length + mid.length) :
    setSlice (pre ++ (mid ++ suf)) a b v = pre ++ (List.replicate mid.length v ++ suf) := by
  subst ha hb
  rw [setSlice_eq_take_drop _ _ _ _ (by omega) (by simp)]
  rw [List.take_left' rfl]
  have h1 : pre.length + mid.length - pre.length = mid.length := by omega
  rw [h1, ← List.append_assoc pre mid suf, ← List.length_append pre mid]
  rw [show (pre ++ mid).length = (pre ++ mid).length + 0 from rfl, List.drop_append]
  simp

theorem manchester_fold (S : ℕ) (bs : List ℤ) : ∀ (k : ℕ) (pre suf : List ℤ),
    pre.length = k * S →
    (List.enumFrom k bs).foldl (manchesterStep S)
        (pre ++ (List.replicate (bs.length * S) 0 ++ suf)) =
      pre ++ (bs.flatMap (manchesterBlock S) ++ suf) := by
  induction bs with
  | nil => intro k pre suf _; simp
  | cons b bs ih =>
    intro k pre suf hpre
    have hsplit : List.replicate ((b :: bs).length * S) (0 : ℤ) ++ suf =
        List.replicate (S / 2) 0 ++
          (List.replicate (S - S / 2) 0 ++ (List.replicate (bs.length * S) 0 ++ suf)) := by
      rw [← List.append_assoc, ← List.replicate_add, ← List.append_assoc, ← List.replicate_add]
      congr 2
      simp [Nat.succ_mul]
      omega
    have hstep : manchesterStep S (pre ++ (List.replicate ((b :: bs).length * S) 0 ++ suf)) (k, b) =
        (pre ++ manchesterBlock S b) ++ (List.replicate (bs.length * S) 0 ++ suf) := by
      rw [hsplit]
      have hinner : ∀ v : ℤ,
          setSlice (pre ++ (List.replicate (S / 2) 0 ++
              (List.replicate (S - S / 2) 0 ++ (List.replicate (bs.length * S) 0 ++ suf))))
            (k * S) (k * S + S / 2) v =
          (pre ++ List.replicate (S / 2) v) ++
            (List.replicate (S - S / 2) 0 ++ (List.replicate (bs.length * S) 0 ++ suf)) := by
        intro v
        rw [setSlice_exact _ _ _ _ _ _ (by omega) (by simp; omega)]
        simp
      have houter : ∀ v w : ℤ,
          setSlice ((pre ++ List.replicate (S / 2) v) ++
              (List.replicate (S - S / 2) 0 ++ (List.replicate (bs.length * S) 0 ++ suf)))
            (k * S + S / 2) (k * S + S) w =
          pre ++ ((List.replicate (S / 2) v ++ List.replicate (S - S / 2) w) ++
            (List.replicate (bs.length * S) 0 ++ suf)) := by
        intro v w
        rw [setSlice_exact _ _ _ _ _ _ (by simp; omega) (by simp; omega)]
        simp
      by_cases hb1 : b = 1 <;>
        simp only [manchesterStep, manchesterBlock, hb1, reduceIte, hinner, houter] <;>
        simp [List.append_assoc]
    rw [List.enumFrom_cons, List.foldl_cons, hstep,
      ih (k + 1) (pre ++ manchesterBlock S b) suf
        (by by_cases hb1 : b = 1 <;> simp [manchesterBlock, hb1, Nat.add_mul] <;> omega)]
    simp

theorem encode_manchester_eq_flatMap (data : List ℤ) (S : ℕ) :
    encode_manchester data S = data.flatMap (manchesterBlock S) := by
  have h := manchester_fold S data 0 [] []
  simp at h
  simpa [encode_manchester, List.enum] using h

theorem ami_fold (S : ℕ) (bs : List ℤ) : ∀ (k : ℕ) (p : ℤ) (pre suf : List ℤ),
    pre.length = k * S →
    (List.enumFrom k bs).foldl (amiStep S)
        (pre ++ (List.replicate (bs.length * S) 0 ++ suf), p) =
      (pre ++ (amiBlocks S bs p ++ suf), amiFinal bs p) := by
  induction bs with
  | nil => intro k p pre suf _; simp [amiBlocks, amiFinal]
  | cons b bs ih =>
    intro k p pre suf hpre
    have hsplit : List.replicate ((b :: bs).length * S) (0 : ℤ) ++ suf =
        List.replicate S 0 ++ (List.replicate (bs.length * S) 0 ++ suf) := by
      rw [← List.append_assoc, ← List.replicate_add]
      congr 2
      simp [Nat.succ_mul]
      omega
    rw [List.enumFrom_cons, List.foldl_cons]
    by_cases hb1 : b = 1
    · have hstep : amiStep S
          (pre ++ (List.replicate ((b :: bs).length * S) 0 ++ suf), p) (k, b) =
          ((pre ++ List.replicate S p) ++ (List.replicate (bs.length * S) 0 ++ suf), -p) := by
        simp only [amiStep]
        rw [if_pos (show ((k, b).2 = (1 : ℤ)) from hb1), hsplit,
          setSlice_exact _ _ _ _ _ _ (by omega) (by simp; omega)]
        simp
      rw [hstep, ih (k + 1) (-p) (pre ++ List.replicate S p) suf (by simp [hpre, Nat.add_mul])]
      simp [amiBlocks, amiFinal, hb1, List.append_assoc]
    · have hstep : amiStep S
          (pre ++ (List.replicate ((b :: bs).length * S) 0 ++ suf), p) (k, b) =
          ((pre ++ List.replicate S 0) ++ (List.replicate (bs.length * S) 0 ++ suf), p) := by
        simp only [amiStep, hb1, reduceIte]
        rw [hsplit]
        simp
      rw [hstep, ih (k + 1) p (pre ++ List.replicate S 0) suf (by simp [hpre, Nat.add_mul])]
      simp [amiBlocks, amiFinal, hb1, List.append_assoc]

theorem encode_ami_eq_amiBlocks (data : List ℤ) (S : ℕ) :
    encode_ami data S = amiBlocks S data 1 := by
  have h := ami_fold S data 0 1 [] []
  simp at h
  simp [encode_ami, List.enum, h]

theorem map_flatMap_replicate (g : ℤ → ℤ) (S : ℕ) : ∀ data : List ℤ,
    (data.flatMap (fun b => List.replicate S b)).map g
      = data.flatMap (fun b => List.replicate S (g b)) := by
  intro data
  induction data with
  | nil => simp
  | cons b bs ih => simp [ih, List.map_replicate]

theorem encode_nrz_l_eq_flatMap (data : List ℤ) (S : ℕ) :
    encode_nrz_l data S
      = data.flatMap (fun b => List.replicate S (if b = 1 then 1 else -1)) :=
  map_flatMap_replicate (fun x => if x = 1 then 1 else -1) S data

theorem length_rzBlock (S : ℕ) (b : ℤ) : (rzBlock S b).length = S := by
  simp [rzBlock]
  omega

theorem length_manchesterBlock (S : ℕ) (b : ℤ) : (manchesterBlock S b).length = S := by
  by_cases hb : b = 1 <;> simp [manchesterBlock, hb] <;> omega

theorem length_flatMap_const (S : ℕ) (f : ℤ → List ℤ) (hf : ∀ b, (f b).length = S) :
    ∀ data : List ℤ, (data.flatMap f).length = data.length * S := by
  intro data
  induction data with
  | nil => simp
  | cons b bs ih =>
    simp only [List.flatMap_cons, List.length_append, hf, ih, List.length_cons, Nat.succ_mul]
    omega

theorem length_amiBlocks (S : ℕ) : ∀ (bs : List ℤ) (p : ℤ),
    (amiBlocks S bs p).length = bs.length * S := by
  intro bs
  induction bs with
  | nil => intro p; simp [amiBlocks]
  | cons b bs ih =>
    intro p
    by_cases hb : b = 1 <;> simp [amiBlocks, hb, ih, Nat.succ_mul] <;> omega

theorem length_encodeScheme (s : EncodingScheme) (data : List ℤ) (S : ℕ) :
    (encodeScheme s data S).length = data.length * S := by
  cases s
  · rw [encodeScheme, encode_nrz_l_eq_flatMap,
      length_flatMap_const S _ (fun b => by simp)]
  · rw [encodeScheme, encode_rz_eq_flatMap,
      length_flatMap_const S _ (fun b => length_rzBlock S b)]
  · rw [encodeScheme, encode_manchester_eq_flatMap,
      length_flatMap_const S _ (fun b => length_manchesterBlock S b)]
  · rw [encodeScheme, encode_ami_eq_amiBlocks, length_amiBlocks]

theorem blockOf_flatMap (S : ℕ) (f : ℤ → List ℤ) (hf : ∀ b, (f b).length = S) :
    ∀ (data : List ℤ) (i : ℕ), i < data.length →
      blockOf (data.flatMap f) S i = f (data.getD i 0) := by
  intro data
  induction data with
  | nil => intro i hi; simp at hi
  | cons b bs ih =>
    intro i hi
    cases i with
    | zero =>
      simp only [blockOf, List.flatMap_cons, Nat.zero_mul, List.drop_zero, List.getD_cons_zero]
      exact List.take_left' (hf b)
    | succ i =>
      have h1 : (i + 1) * S = (f b).length + i * S := by
        rw [hf b]
        ring
      simp only [blockOf, List.flatMap_cons, List.getD_cons_succ]
      rw [h1, List.drop_append]
      exact ih i (by simp at hi; omega)

theorem blockOf_amiBlocks (S : ℕ) : ∀ (bs : List ℤ) (p : ℤ) (i : ℕ), i < bs.length →
    blockOf (amiBlocks S bs p) S i =
      if bs.getD i 0 = 1 then List.replicate S (p * (-1) ^ ((bs.take i).count 1))
      else List.replicate S 0 := by
  intro bs
  induction bs with
  | nil => intro p i hi; simp at hi
  | cons b bs ih =>
    intro p i hi
    cases i with
    | zero =>
      simp only [amiBlocks, blockOf, Nat.zero_mul, List.drop_zero, List.take_zero,
        List.count_nil, pow_zero, mul_one, List.getD_cons_zero]
      by_cases hb : b = 1
      · rw [if_pos hb, if_pos hb, List.take_left' (by simp)]
      · rw [if_neg hb, if_neg hb, List.take_left' (by simp)]
    | succ i =>
      have h1 : (i + 1) * S =
          (if b = 1 then List.replicate S p else List.replicate S 0).length + i * S := by
        by_cases hb : b = 1 <;> simp [hb] <;> ring
      simp only [amiBlocks, blockOf, List.getD_cons_succ]
      rw [h1, List.drop_append]
      have h2 := ih (if b = 1 then -p else p) i (by simp at hi; omega)
      simp only [blockOf] at h2
      rw [h2]
      by_cases hd : bs.getD i 0 = 1
      · rw [if_pos hd, if_pos hd]
        congr 1
        by_cases hb : b = 1
        · simp [hb, List.count_cons, pow_succ]
          try ring
        · have hbne : (b == (1 : ℤ)) = false := by simp [hb]
          simp [List.take_succ_cons, List.count_cons, hbne, hb]
      · rw [if_neg hd, if_neg hd]

open scoped Classical

/-- np.array over an encoder output: integer samples viewed as reals. -/
noncomputable def intSig (xs : List ℤ) : List ℝ := xs.map (fun x => (x : ℝ))

/-- Bin k of np.fft.fft: the discrete Fourier transform with the numpy sign
convention. -/
noncomputable def dft (x : List ℝ) (k : ℕ) : ℂ :=
  ((List.range x.length).map (fun j : ℕ =>
    ((x.getD j 0 : ℝ) : ℂ) *
      Complex.exp (-2 * (Real.pi : ℂ) * Complex.I * (j : ℂ) * (k : ℂ) / (x.length : ℂ)))).sum

/-- The frequency axis retained by app.py: np.fft.fftfreq(n, 1/fs) filtered by
the mask freqs >= 0. For a positive sampling rate the mask keeps exactly the
first (n+1)/2 bins, whose frequencies are k*fs/n. -/
noncomputable def fftfreqPos (n : ℕ) (fs : ℝ) : List ℝ :=
  (List.range ((n + 1) / 2)).map (fun k : ℕ => (k : ℝ) * fs / (n : ℝ))

/-- np.max of an array (the code only applies it to nonempty arrays). -/
noncomputable def npMax (xs : List ℝ) : ℝ := xs.foldl max (xs.headD 0)

/-- np.cumsum. -/
noncomputable def npCumsum (xs : List ℝ) : List ℝ :=
  (List.range xs.length).map (fun i => (xs.take (i + 1)).sum)

/-- Index of the first entry at least t, i.e. np.where(xs >= t)[0][0]. -/
noncomputable def firstIdxGe (t : ℝ) : List ℝ → Option ℕ
  | [] => none
  | c :: cs => if t ≤ c then some 0 else (firstIdxGe t cs).map (fun i => i + 1)

/-- np.argmax: index of the first maximal entry (applied to nonempty arrays). -/
noncomputable def npArgmax (xs : List ℝ) : ℕ := (firstIdxGe (npMax xs) xs).getD 0

/-- magnitude_positive of app.py calculate_fft: np.abs(np.fft.fft(signal))
restricted to the nonnegative-frequency bins. -/
noncomputable def magnitudeSpectrum (sig : List ℝ) : List ℝ :=
  (List.range ((sig.length + 1) / 2)).map (fun k => Complex.abs (dft sig k))

/-- psd_positive of app.py calculate_spectral_efficiency_metrics:
np.abs(np.fft.fft(signal))**2 restricted to the nonnegative-frequency bins. -/
noncomputable def powerSpectrum (sig : List ℝ) : List ℝ :=
  (List.range ((sig.length + 1) / 2)).map (fun k => Complex.abs (dft sig k) ^ 2)

/-- app.py calculate_fft. none models the ValueError np.fft.fft raises on an
empty array; otherwise the nonnegative-frequency axis and the magnitude
spectrum, divided by its maximum when that maximum is positive. -/
noncomputable def calculate_fft (sig : List ℝ) (fs : ℝ) : Option (List ℝ × List ℝ) :=
  if sig.length = 0 then none
  else
    let mag := magnitudeSpectrum sig
    let magN := if 0 < npMax mag then mag.map (fun x => x / npMax mag) else mag
    some (fftfreqPos sig.length fs, magN)

/-- Periodic Hann window, scipy.signal.get_window('hann', M); scipy returns
all ones for M at most 1. -/
noncomputable def hannWindow (M : ℕ) : List ℝ :=
  if M ≤ 1 then List.replicate M 1
  else (List.range M).map (fun j : ℕ => 1 / 2 - 1 / 2 * Real.cos (2 * Real.pi * (j : ℝ) / (M : ℝ)))

/-- Segment s of Welch's method: nper samples starting at s*step, detrended by
subtracting the segment mean ('constant' detrend), then windowed. -/
noncomputable def welchSegment (x : List ℝ) (nper step s : ℕ) : List ℝ :=
  let seg := (x.drop (s * step)).take nper
  (hannWindow nper).zipWith (fun w y => w * (y - seg.sum / (nper : ℝ))) seg

/-- scipy.signal.welch with the defaults app.py uses: hann window, noverlap =
nperseg/2, nfft = nperseg, constant detrend, onesided spectrum with density
scaling, mean average over segments. Meaningful for 1 <= nper <= x.length. -/
noncomputable def welch (x : List ℝ) (fs : ℝ) (nper : ℕ) : List ℝ × List ℝ :=
  let step := nper - nper / 2
  let nseg := (x.length - nper) / step + 1
  let w := hannWindow nper
  let scale := 1 / (fs * (w.map (fun v => v ^ 2)).sum)
  let nbins := nper / 2 + 1
  ((List.range nbins).map (fun k : ℕ => (k : ℝ) * fs / (nper : ℝ)),
   (List.range nbins).map (fun k : ℕ =>
     (((List.range nseg).map (fun s =>
         Complex.abs (dft (welchSegment x nper step s) k) ^ 2 * scale *
           (if k = 0 ∨ (nper % 2 = 0 ∧ k = nper / 2) then 1 else 2))).sum) / (nseg : ℝ)))

/-- app.py calculate_psd: Welch PSD with nperseg = min(256, len//4). none
models the ValueError scipy raises when that nperseg is below 1; otherwise the
estimate is normalized by its maximum when that maximum is positive. -/
noncomputable def calculate_psd (sig : List ℝ) (fs : ℝ) : Option (List ℝ × List ℝ) :=
  if min 256 (sig.length / 4) = 0 then none
  else
    let wp := welch sig fs (min 256 (sig.length / 4))
    let psdN := if 0 < npMax wp.2 then wp.2.map (fun x => x / npMax wp.2) else wp.2
    some (wp.1, psdN)

/-- The six scalar outputs of calculate_spectral_efficiency_metrics. -/
structure EfficiencyMetrics where
  dc_component : ℝ
  bandwidth_90 : ℝ
  spectral_efficiency : ℝ
  peak_frequency : ℝ
  bandwidth_efficiency : ℝ
  total_power : ℝ

/-- app.py calculate_spectral_efficiency_metrics: raw power |fft|^2 on the
nonnegative-frequency bins, DC percentage, 90 percent-power bandwidth via
np.where on the cumulative sum (falling back to the last frequency when no
index qualifies), spectral efficiency, peak frequency skipping the DC bin, and
bandwidth efficiency. none models the ValueError np.fft.fft raises on an empty
array and the one np.argmax raises when psd_positive[1:] is empty. -/
noncomputable def calculate_spectral_efficiency_metrics (sig : List ℝ)
    (data_rate fs : ℝ) : Option EfficiencyMetrics :=
  if sig.length = 0 then none
  else
    let freqsPos := fftfreqPos sig.length fs
    let psdPos := powerSpectrum sig
    if psdPos.length ≤ 1 then none
    else
      let totalPower := psdPos.sum
      let bw := match firstIdxGe (totalPower * 0.9) (npCumsum psdPos) with
        | some i => freqsPos.getD i 0
        | none => freqsPos.getLastD 0
      let peakIdx := npArgmax (psdPos.drop 1) + 1
      some { dc_component := if 0 < totalPower then psdPos.getD 0 0 / totalPower * 100 else 0
             bandwidth_90 := bw
             spectral_efficiency := if 0 < bw then data_rate / bw else 0
             peak_frequency := if peakIdx < freqsPos.length then freqsPos.getD peakIdx 0 else 0
             bandwidth_efficiency := if 0 < data_rate then bw / data_rate else 0
             total_power := totalPower }

/-- np.linspace(a, b, num, endpoint=False). -/
noncomputable def linspace (a b : ℝ) (num : ℕ) : List ℝ :=
  (List.range num).map (fun k : ℕ => a + (b - a) * (k : ℝ) / (num : ℝ))

/-- The JSON payload of the /api/encode handler. -/
structure EncodeResponse where
  time : List ℝ
  original : List ℤ
  nrz_l : List ℤ
  rz : List ℤ
  manchester : List ℤ
  ami : List ℤ

/-- app.py encode (the /api/encode handler). samples_per_bit is parsed with
int(...) and may be any integer. The empty bit list is rejected first with the
400 error. A negative samples_per_bit then makes np.linspace raise ValueError
(a negative sample count), which the except block turns into the 500 error
with no result. Otherwise the handler returns the time axis, upsampled bits
and all four encodings (samples_per_bit 0 yields empty signals). -/
noncomputable def encode (bits : List ℤ) (S : ℤ) : Except String EncodeResponse :=
  if bits = [] then Except.error ("No bits provided")
  else if S < 0 then Except.error ("exception")
  else
    Except.ok
      { time := linspace 0 ((bits.length : ℝ) / 1.0) (bits.length * S.toNat)
        original := bits.flatMap (fun b => List.replicate S.toNat b)
        nrz_l := encode_nrz_l bits S.toNat
        rz := encode_rz bits S.toNat
        manchester := encode_manchester bits S.toNat
        ami := encode_ami bits S.toNat }

/-- One per-scheme result of the /api/spectral-analysis handler. The handler
truncates frequencies_fft and magnitude to their first half before returning
them. -/
structure SpectralSummary where
  frequencies_fft : List ℝ
  magnitude : List ℝ
  frequencies_psd : List ℝ
  psd : List ℝ
  metrics : EfficiencyMetrics

/-- One iteration of the per-scheme loop in app.py spectral_analysis:
calculate_fft, calculate_psd, calculate_spectral_efficiency_metrics, then the
result record with the fft lists cut to half length. -/
noncomputable def analyzeScheme (sig : List ℝ) (data_rate fs : ℝ) :
    Option SpectralSummary := do
  let fm ← calculate_fft sig fs
  let pp ← calculate_psd sig fs
  let M ← calculate_spectral_efficiency_metrics sig data_rate fs
  some { frequencies_fft := fm.1.take (fm.1.length / 2)
         magnitude := fm.2.take (fm.2.length / 2)
         frequencies_psd := pp.1
         psd := pp.2
         metrics := M }

/-- The full payload of the /api/spectral-analysis handler. -/
structure AnalysisResults where
  nrz_l : SpectralSummary
  rz : SpectralSummary
  manchester : SpectralSummary
  ami : SpectralSummary

/-- app.py spectral_analysis (the /api/spectral-analysis handler): rejects an
empty bit list, computes sampling_rate = samples_per_bit * data_rate, encodes
with all four schemes and analyzes each; any exception inside the loop aborts
the whole request with a 500 error. -/
noncomputable def spectral_analysis (bits : List ℤ) (S : ℕ) (data_rate : ℝ) :
    Except String AnalysisResults :=
  if bits = [] then Except.error ("No bits provided")
  else
    match (do
      let a ← analyzeScheme (intSig (encode_nrz_l bits S)) data_rate ((S : ℝ) * data_rate)
      let b ← analyzeScheme (intSig (encode_rz bits S)) data_rate ((S : ℝ) * data_rate)
      let c ← analyzeScheme (intSig (encode_manchester bits S)) data_rate ((S : ℝ) * data_rate)
      let d ← analyzeScheme (intSig (encode_ami bits S)) data_rate ((S : ℝ) * data_rate)
      some (AnalysisResults.mk a b c d) : Option AnalysisResults) with
    | some r => Except.ok r
    | none => Except.error ("exception")

theorem foldl_max_le (xs : List ℝ) : ∀ a : ℝ,
    a ≤ xs.foldl max a ∧ ∀ y ∈ xs, y ≤ xs.foldl max a := by
  induction xs with
  | nil => intro a; simp
  | cons x t ih =>
    intro a
    refine ⟨le_trans (le_max_left a x) (ih (max a x)).1, ?_⟩
    intro y hy
    rcases List.mem_cons.mp hy with h | h
    · subst h
      exact le_trans (le_max_right a y) (ih (max a y)).1
    · exact (ih (max a x)).2 y h

theorem foldl_max_cases (xs : List ℝ) : ∀ a : ℝ,
    xs.foldl max a = a ∨ xs.foldl max a ∈ xs := by
  induction xs with
  | nil => intro a; simp
  | cons x t ih =>
    intro a
    rcases ih (max a x) with h | h
    · rcases max_cases a x with ⟨he, _⟩ | ⟨he, _⟩
      · left
        rw [List.foldl_cons, h, he]
      · right
        rw [List.foldl_cons, h, he]
        exact List.mem_cons_self x t
    · right
      exact List.mem_cons_of_mem x h

theorem npMax_cons (x : ℝ) (t : List ℝ) : npMax (x :: t) = t.foldl max x := by
  simp [npMax]

theorem le_npMax (xs : List ℝ) (y : ℝ) (hy : y ∈ xs) : y ≤ npMax xs := by
  cases xs with
  | nil => simp at hy
  | cons x t =>
    rw [npMax_cons]
    rcases List.mem_cons.mp hy with h | h
    · subst h
      exact (foldl_max_le t y).1
    · exact (foldl_max_le t x).2 y h

theorem npMax_mem (xs : List ℝ) (hx : xs ≠ []) : npMax xs ∈ xs := by
  cases xs with
  | nil => exact absurd rfl hx
  | cons x t =>
    rw [npMax_cons]
    rcases foldl_max_cases t x with h | h
    · rw [h]
      exact List.mem_cons_self x t
    · exact List.mem_cons_of_mem x h

theorem foldl_max_div (M : ℝ) (hM : 0 ≤ M) (xs : List ℝ) : ∀ a : ℝ,
    (xs.map (fun x => x / M)).foldl max (a / M) = xs.foldl max a / M := by
  induction xs with
  | nil => intro a; simp
  | cons x t ih =>
    intro a
    rw [List.map_cons, List.foldl_cons, List.foldl_cons, max_div_div_right hM, ih]

theorem npMax_map_div (xs : List ℝ) (hx : xs ≠ []) (M : ℝ) (hM : 0 ≤ M) :
    npMax (xs.map (fun x => x / M)) = npMax xs / M := by
  cases xs with
  | nil => exact absurd rfl hx
  | cons x t =>
    rw [List.map_cons, npMax_cons, npMax_cons, foldl_max_div M hM]

/-- The shared normalization step of calculate_fft and calculate_psd: dividing
by the maximum yields maximum exactly 1 when the maximum is positive; when a
nonnegative array has nonpositive maximum the array is all zeros and is
returned unchanged. -/
theorem normalize_max (xs : List ℝ) (hx : xs ≠ []) (h0 : ∀ y ∈ xs, 0 ≤ y) :
    npMax (if 0 < npMax xs then xs.map (fun x => x / npMax xs) else xs) = 1 ∨
      (if 0 < npMax xs then xs.map (fun x => x / npMax xs) else xs) =
        List.replicate
          (if 0 < npMax xs then xs.map (fun x => x / npMax xs) else xs).length 0 := by
  by_cases h : 0 < npMax xs
  · left
    rw [if_pos h, npMax_map_div xs hx _ (le_of_lt h), div_self (ne_of_gt h)]
  · right
    rw [if_neg h]
    push_neg at h
    rw [List.eq_replicate_iff]
    refine ⟨rfl, fun b hb => le_antisymm (le_trans (le_npMax xs b hb) h) (h0 b hb)⟩

theorem firstIdxGe_spec (t : ℝ) : ∀ (xs : List ℝ) (i : ℕ),
    firstIdxGe t xs = some i →
      i < xs.length ∧ t ≤ xs.getD i 0 ∧ ∀ j, j < i → xs.getD j 0 < t := by
  intro xs
  induction xs with
  | nil => intro i h; simp [firstIdxGe] at h
  | cons c cs ih =>
    intro i h
    rw [firstIdxGe] at h
    by_cases hc : t ≤ c
    · rw [if_pos hc] at h
      cases h
      exact ⟨by simp, by simpa using hc, fun j hj => absurd hj (Nat.not_lt_zero j)⟩
    · rw [if_neg hc] at h
      rcases Option.map_eq_some'.mp h with ⟨i', hi', rfl⟩
      obtain ⟨h1, h2, h3⟩ := ih i' hi'
      refine ⟨by simpa using h1, by simpa using h2, ?_⟩
      intro j hj
      cases j with
      | zero => simpa using lt_of_not_le hc
      | succ j => simpa using h3 j (by omega)

theorem firstIdxGe_isSome (t : ℝ) : ∀ xs : List ℝ,
    (∃ y ∈ xs, t ≤ y) → ∃ i, firstIdxGe t xs = some i := by
  intro xs
  induction xs with
  | nil => intro h; simp at h
  | cons c cs ih =>
    intro h
    by_cases hc : t ≤ c
    · exact ⟨0, by rw [firstIdxGe, if_pos hc]⟩
    · obtain ⟨y, hy, hty⟩ := h
      rcases List.mem_cons.mp hy with rfl | hy'
      · exact absurd hty hc
      · obtain ⟨i, hi⟩ := ih ⟨y, hy', hty⟩
        exact ⟨i + 1, by rw [firstIdxGe, if_neg hc, hi, Option.map_some']⟩

theorem getD_map_range (n : ℕ) (f : ℕ → ℝ) (i : ℕ) (hi : i < n) :
    ((List.range n).map f).getD i 0 = f i := by
  rw [List.getD_eq_getElem _ _ (by simpa using hi)]
  simp

theorem length_npCumsum (xs : List ℝ) : (npCumsum xs).length = xs.length := by
  simp [npCumsum]

theorem npCumsum_getD (xs : List ℝ) (i : ℕ) (hi : i < xs.length) :
    (npCumsum xs).getD i 0 = (xs.take (i + 1)).sum := by
  rw [npCumsum, getD_map_range _ _ i hi]

theorem powerSpectrum_nonneg (sig : List ℝ) : ∀ y ∈ powerSpectrum sig, 0 ≤ y := by
  intro y hy
  rw [powerSpectrum] at hy
  obtain ⟨k, _, rfl⟩ := List.mem_map.mp hy
  positivity

theorem length_powerSpectrum (sig : List ℝ) :
    (powerSpectrum sig).length = (sig.length + 1) / 2 := by
  simp [powerSpectrum]

theorem magnitudeSpectrum_nonneg (sig : List ℝ) : ∀ y ∈ magnitudeSpectrum sig, 0 ≤ y := by
  intro y hy
  rw [magnitudeSpectrum] at hy
  obtain ⟨k, _, rfl⟩ := List.mem_map.mp hy
  positivity

theorem length_magnitudeSpectrum (sig : List ℝ) :
    (magnitudeSpectrum sig).length = (sig.length + 1) / 2 := by
  simp [magnitudeSpectrum]

theorem length_welch_psd (x : List ℝ) (fs : ℝ) (nper : ℕ) :
    (welch x fs nper).2.length = nper / 2 + 1 := by
  simp [welch]

theorem welch_psd_nonneg (x : List ℝ) (fs : ℝ) (hfs : 0 ≤ fs) (nper : ℕ) :
    ∀ y ∈ (welch x fs nper).2, 0 ≤ y := by
  intro y hy
  simp only [welch, List.mem_map, List.mem_range] at hy
  obtain ⟨k, _, rfl⟩ := hy
  apply div_nonneg _ (Nat.cast_nonneg _)
  apply List.sum_nonneg
  intro z hz
  simp only [List.mem_map, List.mem_range] at hz
  obtain ⟨s, _, rfl⟩ := hz
  have hscale : (0 : ℝ) ≤ 1 / (fs * ((hannWindow nper).map (fun v => v ^ 2)).sum) := by
    apply one_div_nonneg.mpr
    apply mul_nonneg hfs
    apply List.sum_nonneg
    intro w hw
    obtain ⟨v, _, rfl⟩ := List.mem_map.mp hw
    positivity
  have h2 : (0 : ℝ) ≤ if k = 0 ∨ (nper % 2 = 0 ∧ k = nper / 2) then 1 else 2 := by
    split <;> norm_num
  exact mul_nonneg (mul_nonneg (by positivity) hscale) h2

theorem calculate_psd_some (sig : List ℝ) (fs : ℝ) (pp : List ℝ × List ℝ)
    (h : calculate_psd sig fs = some pp) :
    min 256 (sig.length / 4) ≠ 0 ∧
    pp.2 = (if 0 < npMax (welch sig fs (min 256 (sig.length / 4))).2
            then ((welch sig fs (min 256 (sig.length / 4))).2).map
                (fun x => x / npMax (welch sig fs (min 256 (sig.length / 4))).2)
            else (welch sig fs (min 256 (sig.length / 4))).2) := by
  by_cases hc : min 256 (sig.length / 4) = 0
  · rw [calculate_psd, if_pos hc] at h
    exact absurd h (by simp)
  · rw [calculate_psd, if_neg hc] at h
    refine ⟨hc, ?_⟩
    rw [← Option.some.inj h]

theorem calculate_fft_some (sig : List ℝ) (fs : ℝ) (fm : List ℝ × List ℝ)
    (h : calculate_fft sig fs = some fm) :
    sig.length ≠ 0 ∧
    fm.2 = (if 0 < npMax (magnitudeSpectrum sig)
            then (magnitudeSpectrum sig).map (fun x => x / npMax (magnitudeSpectrum sig))
            else magnitudeSpectrum sig) := by
  by_cases hc : sig.length = 0
  · rw [calculate_fft, if_pos hc] at h
    exact absurd h (by simp)
  · rw [calculate_fft, if_neg hc] at h
    refine ⟨hc, ?_⟩
    rw [← Option.some.inj h]

theorem analyzeScheme_some_inv (sig : List ℝ) (dr fs : ℝ) (s : SpectralSummary)
    (h : analyzeScheme sig dr fs = some s) :
    ∃ fm pp M, calculate_fft sig fs = some fm ∧ calculate_psd sig fs = some pp ∧
      calculate_spectral_efficiency_metrics sig dr fs = some M ∧
      s = ⟨fm.1.take (fm.1.length / 2), fm.2.take (fm.2.length / 2), pp.1, pp.2, M⟩ := by
  cases hfm : calculate_fft sig fs with
  | none => simp [analyzeScheme, hfm] at h
  | some fm =>
    cases hpp : calculate_psd sig fs with
    | none => simp [analyzeScheme, hfm, hpp] at h
    | some pp =>
      cases hM : calculate_spectral_efficiency_metrics sig dr fs with
      | none => simp [analyzeScheme, hfm, hpp, hM] at h
      | some M =>
        simp [analyzeScheme, hfm, hpp, hM] at h
        exact ⟨fm, pp, M, rfl, rfl, rfl, h.symm⟩

theorem analyzeScheme_norm (sig : List ℝ) (dr fs : ℝ) (hfs : 0 < fs)
    (s : SpectralSummary) (h : analyzeScheme sig dr fs = some s) :
    (npMax s.psd = 1 ∨ s.psd = List.replicate s.psd.length 0) ∧
    ∃ full, s.magnitude = full.take (full.length / 2) ∧
      (npMax full = 1 ∨ full = List.replicate full.length 0) := by
  obtain ⟨fm, pp, M, hfm, hpp, hM, rfl⟩ := analyzeScheme_some_inv sig dr fs s h
  constructor
  · obtain ⟨hne, hpsd⟩ := calculate_psd_some sig fs pp hpp
    have hraw_ne : (welch sig fs (min 256 (sig.length / 4))).2 ≠ [] := by
      intro hcon
      have hl := length_welch_psd sig fs (min 256 (sig.length / 4))
      rw [hcon] at hl
      simp at hl
    have hnn := welch_psd_nonneg sig fs (le_of_lt hfs) (min 256 (sig.length / 4))
    have hres := normalize_max _ hraw_ne hnn
    show npMax pp.2 = 1 ∨ pp.2 = List.replicate pp.2.length 0
    rw [hpsd]
    exact hres
  · refine ⟨fm.2, rfl, ?_⟩
    obtain ⟨hne0, hmag⟩ := calculate_fft_some sig fs fm hfm
    have hm_ne : magnitudeSpectrum sig ≠ [] := by
      intro hcon
      have hl := length_magnitudeSpectrum sig
      rw [hcon] at hl
      simp at hl
      omega
    have hres := normalize_max _ hm_ne (magnitudeSpectrum_nonneg sig)
    rw [hmag]
    exact hres

theorem exp_half_turn : Complex.exp (-(2 * (Real.pi : ℂ) * Complex.I * 2) / 4) = -1 := by
  have harg : (-(2 * (Real.pi : ℂ) * Complex.I * 2) / 4) = -((Real.pi : ℂ) * Complex.I) := by
    ring
  rw [harg, Complex.exp_neg, Complex.exp_pi_mul_I]
  norm_num

theorem dft_rz4_0 : dft ([1, 0, -1, 0] : List ℝ) 0 = 0 := by
  norm_num [dft, List.range_succ, List.getD]

theorem dft_rz4_1 : dft ([1, 0, -1, 0] : List ℝ) 1 = 2 := by
  norm_num [dft, List.range_succ, List.getD, exp_half_turn]

theorem mag_rz4 : magnitudeSpectrum ([1, 0, -1, 0] : List ℝ) = [0, 2] := by
  norm_num [magnitudeSpectrum, List.range_succ, dft_rz4_0, dft_rz4_1]

theorem npMax_02 : npMax [0, 2] = 2 := by
  norm_num [npMax, List.foldl]

theorem dft_zero4 (k : ℕ) : dft ([0, 0, 0, 0] : List ℝ) k = 0 := by
  norm_num [dft, List.range_succ, List.getD]

theorem ps_zero4 : powerSpectrum ([0, 0, 0, 0] : List ℝ) = [0, 0] := by
  norm_num [powerSpectrum, List.range_succ, dft_zero4]

theorem freq44 : fftfreqPos 4 4 = [0, 1] := by
  norm_num [fftfreqPos, List.range_succ]

theorem analyzeScheme_isSome (sig : List ℝ) (dr fs : ℝ) (h : 4 ≤ sig.length) :
    ∃ s, analyzeScheme sig dr fs = some s := by
  have h0 : ¬ sig.length = 0 := by omega
  have hm : ¬ min 256 (sig.length / 4) = 0 := by omega
  have hp : ¬ (powerSpectrum sig).length ≤ 1 := by rw [length_powerSpectrum]; omega
  have hs : (analyzeScheme sig dr fs).isSome := by
    simp [analyzeScheme, calculate_fft, calculate_psd,
      calculate_spectral_efficiency_metrics, h0, hm, hp]
  exact Option.isSome_iff_exists.mp hs

theorem analyzeScheme_none_short (sig : List ℝ) (dr fs : ℝ) (h : sig.length < 4) :
    analyzeScheme sig dr fs = none := by
  have hpsd : calculate_psd sig fs = none := by
    rw [calculate_psd, if_pos (by omega)]
  by_cases h0 : sig.length = 0
  · have hfft : calculate_fft sig fs = none := by rw [calculate_fft, if_pos h0]
    simp [analyzeScheme, hfft]
  · simp [analyzeScheme, calculate_fft, h0, hpsd]

theorem spectral_analysis_ok_of (bits : List ℤ) (S : ℕ) (dr : ℝ) (hb : ¬ bits = [])
    (s1 s2 s3 s4 : SpectralSummary)
    (h1 : analyzeScheme (intSig (encode_nrz_l bits S)) dr ((S : ℝ) * dr) = some s1)
    (h2 : analyzeScheme (intSig (encode_rz bits S)) dr ((S : ℝ) * dr) = some s2)
    (h3 : analyzeScheme (intSig (encode_manchester bits S)) dr ((S : ℝ) * dr) = some s3)
    (h4 : analyzeScheme (intSig (encode_ami bits S)) dr ((S : ℝ) * dr) = some s4) :
    spectral_analysis bits S dr = Except.ok ⟨s1, s2, s3, s4⟩ := by
  rw [spectral_analysis, if_neg hb]
  simp [h1, h2, h3, h4]

theorem spectral_analysis_ok_inv (bits : List ℤ) (S : ℕ) (dr : ℝ) (R : AnalysisResults)
    (h : spectral_analysis bits S dr = Except.ok R) :
    analyzeScheme (intSig (encode_nrz_l bits S)) dr ((S : ℝ) * dr) = some R.nrz_l ∧
    analyzeScheme (intSig (encode_rz bits S)) dr ((S : ℝ) * dr) = some R.rz ∧
    analyzeScheme (intSig (encode_manchester bits S)) dr ((S : ℝ) * dr) = some R.manchester ∧
    analyzeScheme (intSig (encode_ami bits S)) dr ((S : ℝ) * dr) = some R.ami := by
  by_cases hb : bits = []
  · rw [spectral_analysis, if_pos hb] at h
    exact absurd h (by simp)
  · rw [spectral_analysis, if_neg hb] at h
    cases h1 : analyzeScheme (intSig (encode_nrz_l bits S)) dr ((S : ℝ) * dr) with
    | none => rw [h1] at h; simp at h
    | some s1 =>
      rw [h1] at h
      cases h2 : analyzeScheme (intSig (encode_rz bits S)) dr ((S : ℝ) * dr) with
      | none => rw [h2] at h; simp at h
      | some s2 =>
        rw [h2] at h
        cases h3 : analyzeScheme (intSig (encode_manchester bits S)) dr ((S : ℝ) * dr) with
        | none => rw [h3] at h; simp at h
        | some s3 =>
          rw [h3] at h
          cases h4 : analyzeScheme (intSig (encode_ami bits S)) dr ((S : ℝ) * dr) with
          | none => rw [h4] at h; simp at h
          | some s4 =>
            rw [h4] at h
            simp at h
            rw [← h]
            exact ⟨rfl, rfl, rfl, rfl⟩

/-- C1 (amended): on any signal long enough for the metrics operation to
return (length at least 3), bandwidth_90 is the frequency of the lowest bin at
which cumulative power first reaches 90 percent of total power; with zero
total power that threshold is met at the very first bin, so bandwidth_90 is 0,
the lowest retained frequency, not the highest one. -/
theorem C1_bandwidth90 (sig : List ℝ) (dr fs : ℝ) (h3 : 3 ≤ sig.length) :
    ∃ M, calculate_spectral_efficiency_metrics sig dr fs = some M ∧
      (∃ i, i < (powerSpectrum sig).length ∧
        M.bandwidth_90 = (fftfreqPos sig.length fs).getD i 0 ∧
        (powerSpectrum sig).sum * 0.9 ≤ ((powerSpectrum sig).take (i + 1)).sum ∧
        (∀ j, j < i →
          ((powerSpectrum sig).take (j + 1)).sum < (powerSpectrum sig).sum * 0.9)) ∧
      ((powerSpectrum sig).sum = 0 → M.bandwidth_90 = 0) := by
  have hlen0 : ¬ sig.length = 0 := by omega
  have hL : (powerSpectrum sig).length = (sig.length + 1) / 2 := length_powerSpectrum sig
  have h2 : ¬ (powerSpectrum sig).length ≤ 1 := by omega
  have hnn := powerSpectrum_nonneg sig
  have hsum : 0 ≤ (powerSpectrum sig).sum := List.sum_nonneg hnn
  have hmemlt : (powerSpectrum sig).length - 1 < (npCumsum (powerSpectrum sig)).length := by
    rw [length_npCumsum]
    omega
  have hval : (npCumsum (powerSpectrum sig)).getD ((powerSpectrum sig).length - 1) 0
      = (powerSpectrum sig).sum := by
    rw [npCumsum_getD _ _ (by omega)]
    have he : (powerSpectrum sig).length - 1 + 1 = (powerSpectrum sig).length := by omega
    rw [he, List.take_length]
  have hex : ∃ y ∈ npCumsum (powerSpectrum sig), (powerSpectrum sig).sum * 0.9 ≤ y := by
    refine ⟨(npCumsum (powerSpectrum sig)).getD ((powerSpectrum sig).length - 1) 0, ?_, ?_⟩
    · rw [List.getD_eq_getElem _ _ hmemlt]
      exact List.getElem_mem hmemlt
    · rw [hval]
      nlinarith
  obtain ⟨i, hi⟩ := firstIdxGe_isSome _ _ hex
  obtain ⟨hi_lt, hi_ge, hi_min⟩ := firstIdxGe_spec _ _ _ hi
  rw [length_npCumsum] at hi_lt
  have hMeq : calculate_spectral_efficiency_metrics sig dr fs = some
      { dc_component := if 0 < (powerSpectrum sig).sum
          then (powerSpectrum sig).getD 0 0 / (powerSpectrum sig).sum * 100 else 0
        bandwidth_90 := (fftfreqPos sig.length fs).getD i 0
        spectral_efficiency := if 0 < (fftfreqPos sig.length fs).getD i 0
          then dr / (fftfreqPos sig.length fs).getD i 0 else 0
        peak_frequency :=
          if npArgmax ((powerSpectrum sig).drop 1) + 1 < (fftfreqPos sig.length fs).length
          then (fftfreqPos sig.length fs).getD (npArgmax ((powerSpectrum sig).drop 1) + 1) 0
          else 0
        bandwidth_efficiency := if 0 < dr then (fftfreqPos sig.length fs).getD i 0 / dr else 0
        total_power := (powerSpectrum sig).sum } := by
    simp only [calculate_spectral_efficiency_metrics, if_neg hlen0, if_neg h2, hi]
  refine ⟨_, hMeq, ⟨i, hi_lt, rfl, ?_, ?_⟩, ?_⟩
  · rw [npCumsum_getD _ _ hi_lt] at hi_ge
    exact hi_ge
  · intro j hj
    have hjlt : j < (powerSpectrum sig).length := by omega
    have := hi_min j hj
    rw [npCumsum_getD _ _ hjlt] at this
    exact this
  · intro h0
    have hi0 : i = 0 := by
      by_contra hne
      have h01 : 0 < i := Nat.pos_of_ne_zero hne
      have hmin0 := hi_min 0 h01
      rw [npCumsum_getD _ _ (by omega)] at hmin0
      have htake : 0 ≤ ((powerSpectrum sig).take 1).sum :=
        List.sum_nonneg (fun x hx => hnn x (List.take_subset 1 _ hx))
      rw [h0] at hmin0
      nlinarith
    subst hi0
    show (fftfreqPos sig.length fs).getD 0 0 = 0
    rw [fftfreqPos, getD_map_range _ _ 0 (by omega)]
    norm_num

/-- C1 counterexample: the all-zero length-4 signal has zero total retained
power, yet the metrics operation returns bandwidth_90 = 0, the lowest retained
frequency, not the highest available frequency, which is 1. -/
theorem C1_counterexample :
    (powerSpectrum ([0, 0, 0, 0] : List ℝ)).sum = 0 ∧
    ∃ M, calculate_spectral_efficiency_metrics [0, 0, 0, 0] 1 4 = some M ∧
      M.bandwidth_90 = 0 ∧
      (fftfreqPos ([0, 0, 0, 0] : List ℝ).length 4).getLastD 0 = 1 ∧
      M.bandwidth_90 ≠ (fftfreqPos ([0, 0, 0, 0] : List ℝ).length 4).getLastD 0 := by
  have hsum0 : (powerSpectrum ([0, 0, 0, 0] : List ℝ)).sum = 0 := by
    rw [ps_zero4]
    norm_num
  have hcum : npCumsum (powerSpectrum ([0, 0, 0, 0] : List ℝ)) = [0, 0] := by
    rw [ps_zero4]
    norm_num [npCumsum, List.range_succ]
  have hfi : firstIdxGe ((powerSpectrum ([0, 0, 0, 0] : List ℝ)).sum * 0.9)
      (npCumsum (powerSpectrum ([0, 0, 0, 0] : List ℝ))) = some 0 := by
    rw [hcum, hsum0]
    norm_num [firstIdxGe]
  have h0 : ¬ ([0, 0, 0, 0] : List ℝ).length = 0 := by norm_num
  have hp : ¬ (powerSpectrum ([0, 0, 0, 0] : List ℝ)).length ≤ 1 := by
    rw [ps_zero4]
    norm_num
  have hlast : (fftfreqPos ([0, 0, 0, 0] : List ℝ).length 4).getLastD 0 = 1 := by
    have hl : ([0, 0, 0, 0] : List ℝ).length = 4 := by norm_num
    rw [hl, freq44]
    rfl
  refine ⟨hsum0, ?_⟩
  cases hM : calculate_spectral_efficiency_metrics [0, 0, 0, 0] 1 4 with
  | none =>
    simp only [calculate_spectral_efficiency_metrics, if_neg h0, if_neg hp, hfi] at hM
    exact absurd hM (by simp)
  | some M =>
    have hMv := hM
    simp only [calculate_spectral_efficiency_metrics, if_neg h0, if_neg hp, hfi,
      Option.some.injEq] at hMv
    have hbw : M.bandwidth_90 = 0 := by
      rw [← hMv]
      show (fftfreqPos ([0, 0, 0, 0] : List ℝ).length 4).getD 0 0 = 0
      have hl : ([0, 0, 0, 0] : List ℝ).length = 4 := by norm_num
      rw [hl, freq44]
      rfl
    refine ⟨M, rfl, hbw, hlast, ?_⟩
    rw [hbw, hlast]
    norm_num

/-- C1 witness: the amended bandwidth statement instantiated on the length-4
signal [0, 1, 0, 0] with data_rate 1 and sampling rate 4. -/
theorem C1_bandwidth90_witness :
    ∃ M, calculate_spectral_efficiency_metrics [0, 1, 0, 0] 1 4 = some M ∧
      (∃ i, i < (powerSpectrum ([0, 1, 0, 0] : List ℝ)).length ∧
        M.bandwidth_90 = (fftfreqPos ([0, 1, 0, 0] : List ℝ).length 4).getD i 0 ∧
        (powerSpectrum ([0, 1, 0, 0] : List ℝ)).sum * 0.9 ≤
          ((powerSpectrum ([0, 1, 0, 0] : List ℝ)).take (i + 1)).sum ∧
        (∀ j, j < i → ((powerSpectrum ([0, 1, 0, 0] : List ℝ)).take (j + 1)).sum <
          (powerSpectrum ([0, 1, 0, 0] : List ℝ)).sum * 0.9)) ∧
      ((powerSpectrum ([0, 1, 0, 0] : List ℝ)).sum = 0 → M.bandwidth_90 = 0) :=
  C1_bandwidth90 [0, 1, 0, 0] 1 4 (by norm_num)

/-- C3 counterexample: for bits [1,0] with samples_per_bit 2 and data_rate 1
the full analysis returns an RZ summary whose magnitude array is [0]: its
maximum is not 1 even though the unnormalized magnitude maximum was 2, not 0,
because the handler truncates the normalized array to its first half and the
maximal bin sits in the dropped half. -/
theorem C3_counterexample :
    ∃ R, spectral_analysis [1, 0] 2 1 = Except.ok R ∧
      R.rz.magnitude = [0] ∧
      ¬ (npMax R.rz.magnitude = 1 ∨
         npMax (magnitudeSpectrum (intSig (encode_rz [1, 0] 2))) = 0) := by
  have e1 : encode_nrz_l [1, 0] 2 = [1, 1, -1, -1] := by decide
  have e2 : encode_rz [1, 0] 2 = [1, 0, -1, 0] := by decide
  have e3 : encode_manchester [1, 0] 2 = [-1, 1, 1, -1] := by decide
  have e4 : encode_ami [1, 0] 2 = [1, 1, 0, 0] := by decide
  have i2 : intSig (encode_rz [1, 0] 2) = [1, 0, -1, 0] := by
    rw [e2]
    norm_num [intSig]
  have l1 : 4 ≤ (intSig (encode_nrz_l [1, 0] 2)).length := by rw [e1]; norm_num [intSig]
  have l2 : 4 ≤ (intSig (encode_rz [1, 0] 2)).length := by rw [e2]; norm_num [intSig]
  have l3 : 4 ≤ (intSig (encode_manchester [1, 0] 2)).length := by rw [e3]; norm_num [intSig]
  have l4 : 4 ≤ (intSig (encode_ami [1, 0] 2)).length := by rw [e4]; norm_num [intSig]
  obtain ⟨s1, h1⟩ := analyzeScheme_isSome (intSig (encode_nrz_l [1, 0] 2)) 1
    (((2 : ℕ) : ℝ) * 1) l1
  obtain ⟨s2, h2⟩ := analyzeScheme_isSome (intSig (encode_rz [1, 0] 2)) 1
    (((2 : ℕ) : ℝ) * 1) l2
  obtain ⟨s3, h3⟩ := analyzeScheme_isSome (intSig (encode_manchester [1, 0] 2)) 1
    (((2 : ℕ) : ℝ) * 1) l3
  obtain ⟨s4, h4⟩ := analyzeScheme_isSome (intSig (encode_ami [1, 0] 2)) 1
    (((2 : ℕ) : ℝ) * 1) l4
  have hok := spectral_analysis_ok_of [1, 0] 2 1 (by decide) s1 s2 s3 s4 h1 h2 h3 h4
  have hmag : s2.magnitude = [0] := by
    obtain ⟨fm, pp, M, hfm, hpp, hM, hs⟩ := analyzeScheme_some_inv _ _ _ _ h2
    obtain ⟨_, hf2⟩ := calculate_fft_some _ _ _ hfm
    rw [hs]
    show fm.2.take (fm.2.length / 2) = [0]
    rw [hf2, i2, mag_rz4, npMax_02]
    norm_num
  refine ⟨_, hok, hmag, ?_⟩
  show ¬ (npMax s2.magnitude = 1 ∨
    npMax (magnitudeSpectrum (intSig (encode_rz [1, 0] 2))) = 0)
  rw [hmag, i2, mag_rz4, npMax_02]
  have hm0 : npMax ([0] : List ℝ) = 0 := by norm_num [npMax, List.foldl]
  rw [hm0]
  norm_num

/-- C3 (amended): for every summary returned by the full analysis with a
positive sampling rate, the psd array has maximum exactly 1 or is all-zero
(when its unnormalized maximum was 0), and the magnitude array is the first
half of a normalized array whose maximum is exactly 1 or which is all-zero;
the truncated magnitude field itself need not attain 1. -/
theorem C3_normalization (bits : List ℤ) (S : ℕ) (dr : ℝ) (R : AnalysisResults)
    (hfs : 0 < (S : ℝ) * dr) (h : spectral_analysis bits S dr = Except.ok R) :
    ∀ s, s = R.nrz_l ∨ s = R.rz ∨ s = R.manchester ∨ s = R.ami →
      (npMax s.psd = 1 ∨ s.psd = List.replicate s.psd.length 0) ∧
      ∃ full, s.magnitude = full.take (full.length / 2) ∧
        (npMax full = 1 ∨ full = List.replicate full.length 0) := by
  obtain ⟨h1, h2, h3, h4⟩ := spectral_analysis_ok_inv bits S dr R h
  intro s hs
  rcases hs with rfl | rfl | rfl | rfl
  · exact analyzeScheme_norm _ _ _ hfs _ h1
  · exact analyzeScheme_norm _ _ _ hfs _ h2
  · exact analyzeScheme_norm _ _ _ hfs _ h3
  · exact analyzeScheme_norm _ _ _ hfs _ h4

/-- C3 witness: the amended statement instantiated on the analysis of the
single bit 0 with samples_per_bit 4, data_rate 1, at the RZ summary. -/
theorem C3_normalization_witness :
    ∃ R, spectral_analysis [0] 4 1 = Except.ok R ∧
      ((npMax R.rz.psd = 1 ∨ R.rz.psd = List.replicate R.rz.psd.length 0) ∧
       ∃ full, R.rz.magnitude = full.take (full.length / 2) ∧
         (npMax full = 1 ∨ full = List.replicate full.length 0)) := by
  have e1 : encode_nrz_l [0] 4 = [-1, -1, -1, -1] := by decide
  have e2 : encode_rz [0] 4 = [-1, -1, 0, 0] := by decide
  have e3 : encode_manchester [0] 4 = [1, 1, -1, -1] := by decide
  have e4 : encode_ami [0] 4 = [0, 0, 0, 0] := by decide
  have l1 : 4 ≤ (intSig (encode_nrz_l [0] 4)).length := by rw [e1]; norm_num [intSig]
  have l2 : 4 ≤ (intSig (encode_rz [0] 4)).length := by rw [e2]; norm_num [intSig]
  have l3 : 4 ≤ (intSig (encode_manchester [0] 4)).length := by rw [e3]; norm_num [intSig]
  have l4 : 4 ≤ (intSig (encode_ami [0] 4)).length := by rw [e4]; norm_num [intSig]
  obtain ⟨s1, h1⟩ := analyzeScheme_isSome (intSig (encode_nrz_l [0] 4)) 1
    (((4 : ℕ) : ℝ) * 1) l1
  obtain ⟨s2, h2⟩ := analyzeScheme_isSome (intSig (encode_rz [0] 4)) 1
    (((4 : ℕ) : ℝ) * 1) l2
  obtain ⟨s3, h3⟩ := analyzeScheme_isSome (intSig (encode_manchester [0] 4)) 1
    (((4 : ℕ) : ℝ) * 1) l3
  obtain ⟨s4, h4⟩ := analyzeScheme_isSome (intSig (encode_ami [0] 4)) 1
    (((4 : ℕ) : ℝ) * 1) l4
  have hok := spectral_analysis_ok_of [0] 4 1 (by decide) s1 s2 s3 s4 h1 h2 h3 h4
  exact ⟨_, hok,
    C3_normalization [0] 4 1 _ (by norm_num) hok _ (Or.inr (Or.inl rfl))⟩

/-- C2 counterexample: the non-binary input bit 2 with samples_per_bit 1 is
not rejected, and neither is the non-positive samples_per_bit 0; the encode
handler succeeds on both. -/
theorem C2_counterexample :
    (∃ r, encode [2] 1 = Except.ok r) ∧ (∃ r, encode [1] 0 = Except.ok r) := by
  constructor
  · rw [encode, if_neg (by decide), if_neg (by decide)]
    exact ⟨_, rfl⟩
  · rw [encode, if_neg (by decide), if_neg (by decide)]
    exact ⟨_, rfl⟩

/-- C2 (amended): the encode handler rejects only the empty bit list with the
InvalidInput failure. Nonempty inputs with nonnegative samples_per_bit are
accepted and encoded without failure, regardless of non-binary bit values
(samples_per_bit 0 yields empty signals); a negative samples_per_bit is not
rejected as InvalidInput but fails with the generic internal error (the
ValueError from np.linspace, surfaced as the 500 error) and returns no
result. -/
theorem C2_validation (bits : List ℤ) (S : ℤ) :
    (bits = [] → encode bits S = Except.error ("No bits provided")) ∧
    (bits ≠ [] → 0 ≤ S → ∃ r, encode bits S = Except.ok r) ∧
    (bits ≠ [] → S < 0 → encode bits S = Except.error ("exception")) := by
  refine ⟨?_, ?_, ?_⟩
  · intro hb
    rw [encode, if_pos hb]
  · intro hb hS
    rw [encode, if_neg hb, if_neg (by omega)]
    exact ⟨_, rfl⟩
  · intro hb hS
    rw [encode, if_neg hb, if_pos hS]

/-- C2 witness: an empty input is rejected, a well-formed one is accepted, and
a negative samples_per_bit fails with the generic error. -/
theorem C2_validation_witness :
    encode [] 5 = Except.error ("No bits provided") ∧
    (∃ r, encode [1, 0] 4 = Except.ok r) ∧
    encode [1] (-2) = Except.error ("exception") :=
  ⟨(C2_validation [] 5).1 rfl,
   (C2_validation [1, 0] 4).2.1 (by decide) (by decide),
   (C2_validation [1] (-2)).2.2 (by decide) (by decide)⟩

/-- C4 counterexample: with odd samples_per_bit 3, the Manchester block of a
1-bit is [-1, 1, 1], whose two halves sum to 1, not 0. -/
theorem C4_counterexample :
    blockOf (encode_manchester [1] 3) 3 0 = [-1, 1, 1] ∧
    (blockOf (encode_manchester [1] 3) 3 0).sum ≠ 0 := by decide

/-- C4 (amended): each per-bit Manchester block has its two halves summing to
0 when samples_per_bit is even; when samples_per_bit is odd the second half is
one sample longer and the block sums to 1 for a 1-bit and to -1 otherwise. -/
theorem C4_manchester_block_sum (data : List ℤ) (S : ℕ) (i : ℕ) (hi : i < data.length) :
    (blockOf (encode_manchester data S) S i).sum =
      if S % 2 = 0 then 0 else if data.getD i 0 = 1 then 1 else -1 := by
  rw [encode_manchester_eq_flatMap, blockOf_flatMap S _ (length_manchesterBlock S) data i hi]
  by_cases hb : data.getD i 0 = 1
  · rw [manchesterBlock, if_pos hb, if_pos hb]
    by_cases hS : S % 2 = 0 <;>
      simp [hS, List.sum_replicate, nsmul_eq_mul] <;> omega
  · rw [manchesterBlock, if_neg hb, if_neg hb]
    by_cases hS : S % 2 = 0 <;>
      simp [hS, List.sum_replicate, nsmul_eq_mul] <;> omega

/-- C4 witness: for even samples_per_bit 4 the Manchester block of bit index 1
sums to 0. -/
theorem C4_manchester_block_sum_witness :
    (blockOf (encode_manchester [1, 0] 4) 4 1).sum = 0 := by
  have h := C4_manchester_block_sum [1, 0] 4 1 (by decide)
  simpa using h

/-- C5: in the AMI signal a 1-bit block is filled with the polarity
(-1)^(number of earlier 1-bits), so the first 1-bit block is +1 and later
1-bit blocks alternate; a 0-bit block is all zeros; bits [1,1] with
samples_per_bit 2 give [1, 1, -1, -1]. -/
theorem C5_ami_blocks (data : List ℤ) (S : ℕ) (i : ℕ) (hi : i < data.length) :
    ((data.getD i 0 = 1 → blockOf (encode_ami data S) S i =
        List.replicate S ((-1) ^ ((data.take i).count 1))) ∧
      (data.getD i 0 = 0 → blockOf (encode_ami data S) S i = List.replicate S 0)) ∧
    encode_ami [1, 1] 2 = [1, 1, -1, -1] := by
  refine ⟨⟨?_, ?_⟩, by decide⟩
  · intro hb
    rw [encode_ami_eq_amiBlocks, blockOf_amiBlocks S data 1 i hi, if_pos hb, one_mul]
  · intro hb
    rw [encode_ami_eq_amiBlocks, blockOf_amiBlocks S data 1 i hi,
      if_neg (by rw [hb]; norm_num)]

/-- C5 witness: the second 1-bit of bits [1,1] with samples_per_bit 2 gets the
flipped polarity block. -/
theorem C5_ami_blocks_witness :
    blockOf (encode_ami [1, 1] 2) 2 1 =
      List.replicate 2 ((-1 : ℤ) ^ ((([1, 1] : List ℤ).take 1).count 1)) :=
  (C5_ami_blocks [1, 1] 2 1 (by decide)).1.1 (by decide)

/-- C6: for every nonempty bit list, samples_per_bit at least 1 and scheme,
the encoded signal has length exactly bits.length * samples_per_bit. -/
theorem C6_length (sch : EncodingScheme) (data : List ℤ) (S : ℕ)
    (_hne : data ≠ []) (_hS : 1 ≤ S) :
    (encodeScheme sch data S).length = data.length * S :=
  length_encodeScheme sch data S

/-- C6 witness: the RZ encoding of two bits at three samples per bit has six
samples. -/
theorem C6_length_witness :
    (encodeScheme EncodingScheme.rz [1, 0] 3).length = ([1, 0] : List ℤ).length * 3 :=
  C6_length EncodingScheme.rz [1, 0] 3 (by decide) (by decide)

/-- C7: both handlers reject the empty bit list with the InvalidInput error
and return no result, for every samples_per_bit and data_rate. -/
theorem C7_empty_rejected (Se : ℤ) (S : ℕ) (dr : ℝ) :
    encode [] Se = Except.error ("No bits provided") ∧
    spectral_analysis [] S dr = Except.error ("No bits provided") := by
  constructor
  · rw [encode, if_pos rfl]
  · rw [spectral_analysis, if_pos rfl]

/-- C8: every operation is a pure function of its explicit inputs: two calls
on equal inputs give equal outputs, with the AMI polarity state local to one
call of the encoder. -/
theorem C8_determinism (sch : EncodingScheme) (bits bits' : List ℤ) (S S' : ℕ)
    (Se Se' : ℤ) (dr dr' : ℝ) (hb : bits = bits') (hS : S = S') (hSe : Se = Se')
    (hd : dr = dr') :
    encodeScheme sch bits S = encodeScheme sch bits' S' ∧
    encode bits Se = encode bits' Se' ∧
    spectral_analysis bits S dr = spectral_analysis bits' S' dr' := by
  subst hb
  subst hS
  subst hSe
  subst hd
  exact ⟨rfl, rfl, rfl⟩

/-- C8 witness: repeated invocations on bits [1,1] agree. -/
theorem C8_determinism_witness :
    encodeScheme EncodingScheme.ami [1, 1] 2 = encodeScheme EncodingScheme.ami [1, 1] 2 ∧
    encode [1, 1] 2 = encode [1, 1] 2 ∧
    spectral_analysis [1, 1] 2 1 = spectral_analysis [1, 1] 2 1 :=
  C8_determinism EncodingScheme.ami [1, 1] [1, 1] 2 2 2 2 1 1 rfl rfl rfl rfl

/-- C9: every signal shorter than 4 samples gives Welch segment length
min(256, len//4) = 0, so calculate_psd fails instead of returning a pair, and
the full analysis of 1 bit with samples_per_bit 3 errors out. -/
theorem C9_psd_nperseg_zero :
    (∀ (sig : List ℝ) (fs : ℝ), sig.length < 4 →
      min 256 (sig.length / 4) = 0 ∧ calculate_psd sig fs = none) ∧
    ∀ dr : ℝ, spectral_analysis [1] 3 dr = Except.error ("exception") := by
  constructor
  · intro sig fs h
    exact ⟨by omega, by rw [calculate_psd, if_pos (by omega)]⟩
  · intro dr
    have e1 : encode_nrz_l [1] 3 = [1, 1, 1] := by decide
    have hlen : (intSig (encode_nrz_l [1] 3)).length = 3 := by
      rw [e1]
      norm_num [intSig]
    rw [spectral_analysis, if_neg (by decide),
      analyzeScheme_none_short _ _ _ (by rw [hlen]; omega)]
    simp

/-- C9 witness: a 3-sample signal yields nperseg 0 and a psd failure, and the
corresponding full analysis fails. -/
theorem C9_psd_nperseg_zero_witness :
    (min 256 (([0, 0, 0] : List ℝ).length / 4) = 0 ∧
      calculate_psd [0, 0, 0] 2 = none) ∧
    spectral_analysis [1] 3 1 = Except.error ("exception") :=
  ⟨C9_psd_nperseg_zero.1 [0, 0, 0] 2 (by norm_num), C9_psd_nperseg_zero.2 1⟩

/-- C10: NRZ-L encoding is total on arbitrary integer inputs: every element
equal to 1 yields a +1 block and every other value yields a -1 block, so
non-binary values are folded to the -1 level instead of being rejected. -/
theorem C10_nrz_total (data : List ℤ) (S : ℕ) (_hS : 1 ≤ S) :
    encode_nrz_l data S =
      data.flatMap (fun b => List.replicate S (if b = 1 then 1 else -1)) ∧
    encode_nrz_l [0, 2, -1] 2 = [-1, -1, -1, -1, -1, -1] :=
  ⟨encode_nrz_l_eq_flatMap data S, by decide⟩

/-- C10 witness: the non-binary input 5 is encoded, not rejected. -/
theorem C10_nrz_total_witness :
    encode_nrz_l [5] 2 =
      ([5] : List ℤ).flatMap (fun b => List.replicate 2 (if b = 1 then 1 else -1)) ∧
    encode_nrz_l [0, 2, -1] 2 = [-1, -1, -1, -1, -1, -1] :=
  C10_nrz_total [5] 2 (by decide)

end LineCoding
